import Mathlib

/-!
Verification of the Subtitle Segmentation & Timing Engine of this repository
(`2_OpenAI_SRT_Term_split.py`) against its natural-language specification.

Texts are modelled as `List Char` (Python strings); parsed millisecond
values as `Nat` (digit strings), and the re-timer's cue times as `Int`
with `Int.fdiv`, matching Python's floor division also on reversed-time
entries where the increment is negative.  The transcript-segment times of
`save_transcript_and_create_srt` are exact rationals — an idealization of
the source's IEEE doubles used only for float-independent facts (see the
`Seg` and C4 comments).  Python exceptions of the processing path are
modelled by `Except Err`.
-/

namespace SrtSplit

/-- Characters treated as whitespace by Python's `str.strip()` / `str.split()`
(the common ones; Python also strips `\x0b`, `\x0c` and some unicode spaces,
which do not occur in the texts this program manipulates). -/
def isPySpace (c : Char) : Bool :=
  c = ' ' || c = '\t' || c = '\n' || c = '\r'

/-- Python `s.strip()`: remove leading and trailing whitespace. -/
def trim (l : List Char) : List Char :=
  ((l.dropWhile isPySpace).reverse.dropWhile isPySpace).reverse

/-- The character class of `re.sub(r'[.,。!?！？]$', '', ...)` used by
`process_srt` and `save_transcript_and_create_srt` to strip one trailing
punctuation character. -/
def PUNCT : List Char := ['.', ',', '。', '!', '?', '！', '？']

/-- `re.sub(r'[.,。!?！？]$', '', l)`: drop the last character when it is in
`PUNCT`, otherwise leave the string unchanged. -/
def stripEndPunct (l : List Char) : List Char :=
  match l.getLast? with
  | some c => if c ∈ PUNCT then l.dropLast else l
  | none => l

/-- `re.sub(r'[.,。!?！？]$', '', l.strip())` — the per-line (and per-text)
cleanup applied by `process_srt` before emitting a line. -/
def clean (l : List Char) : List Char := stripEndPunct (trim l)

/-- Python `text.split()`: split on runs of whitespace, dropping empty words. -/
def wordsAux (cur : List Char) : List Char → List (List Char)
  | [] => if cur = [] then [] else [cur.reverse]
  | c :: cs =>
    if isPySpace c then
      if cur = [] then wordsAux [] cs else cur.reverse :: wordsAux [] cs
    else wordsAux (c :: cur) cs

def wordsOf (l : List Char) : List (List Char) := wordsAux [] l

/-- The non-CJK branch of `split_lines`: greedy word wrap.  `cur` is
`current_line`; a word is appended when
`len(current_line) + (len(word) + 1) <= max_length` (the `+ 1` reserves a
separating space even when `current_line` is empty), otherwise
`current_line` is flushed (even when empty) and the word starts a new line. -/
def wrapWords (maxLen : Nat) (cur : List Char) : List (List Char) → List (List Char)
  | [] => if cur = [] then [] else [cur]
  | w :: ws =>
    if cur.length + (w.length + 1) ≤ maxLen then
      wrapWords maxLen (if cur = [] then w else cur ++ ' ' :: w) ws
    else
      cur :: wrapWords maxLen w ws

/-- Skip a single following space character (`if i < len(text) and text[i] == ' ': i += 1`). -/
def skipSpace (l : List Char) : List Char :=
  match l with
  | c :: r => if c = ' ' then r else c :: r
  | [] => []

theorem skipSpace_length_le (l : List Char) : (skipSpace l).length ≤ l.length := by
  cases l with
  | nil => simp [skipSpace]
  | cons c r => simp only [skipSpace]; split <;> simp

theorem dropWhile_length_le (p : Char → Bool) (l : List Char) :
    (l.dropWhile p).length ≤ l.length := by
  induction l with
  | nil => simp
  | cons c r ih =>
    simp only [List.dropWhile]
    split
    · exact Nat.le_trans ih (by simp)
    · simp

/-- Python `c.isascii()`: code point below 128. -/
def isAscii (c : Char) : Bool := c.toNat < 128

/-- First configured protected term that is a (nonempty) prefix of `rest`;
mirrors the `for term in preserved_terms: if text[i:].startswith(term)` scan
(first match in list order wins).  Matching an empty term would make the
Python loop diverge, so only nonempty terms are considered. -/
def findTerm (terms : List (List Char)) (rest : List Char) : Option (List Char) :=
  terms.find? (fun t => decide (t ≠ []) && t.isPrefixOf rest)

theorem findTerm_ne_nil {terms : List (List Char)} {rest t : List Char}
    (h : findTerm terms rest = some t) : t ≠ [] := by
  have := List.find?_some h
  simp only [Bool.and_eq_true, decide_eq_true_eq] at this
  exact this.1

theorem findTerm_length_le {terms : List (List Char)} {rest t : List Char}
    (h : findTerm terms rest = some t) : t.length ≤ rest.length := by
  have := List.find?_some h
  simp only [Bool.and_eq_true, decide_eq_true_eq] at this
  exact (List.isPrefixOf_iff_prefix.mp this.2).length_le

theorem term_step_lt (k : Nat) (rest : List Char) :
    (skipSpace (rest.drop k)).length < rest.length + 1 := by
  have h1 := skipSpace_length_le (rest.drop k)
  simp only [List.length_drop] at *
  omega

theorem word_step_lt (c : Char) (rest : List Char) :
    (skipSpace ((c :: rest).dropWhile (fun x => !decide (x = ' ')))).length
      < rest.length + 1 := by
  by_cases hc : c = ' '
  · subst hc
    have h1 : ((' ' :: rest).dropWhile (fun x => !decide (x = ' '))) = ' ' :: rest := by
      simp [List.dropWhile]
    rw [h1]
    simp [skipSpace]
  · have h1 : ((c :: rest).dropWhile (fun x => !decide (x = ' ')))
        = rest.dropWhile (fun x => !decide (x = ' ')) := by
      simp [List.dropWhile, hc]
    rw [h1]
    have h2 := skipSpace_length_le (rest.dropWhile (fun x => !decide (x = ' ')))
    have h3 := dropWhile_length_le (fun x => !decide (x = ' ')) rest
    omega

theorem char_step_lt (rest : List Char) :
    (skipSpace rest).length < rest.length + 1 := by
  have h1 := skipSpace_length_le rest
  omega

/-- Result of the CJK scan: the output lines, plus (as instrumentation absent
from the Python code, which only produces the lines) the list of protected
terms the scanner matched, in scan order. -/
structure ScanResult where
  lines : List (List Char)
  found : List (List Char)
  deriving Repr, DecidableEq

/-- The CJK branch of `split_lines`: scan character by character; a protected
term or a maximal run of non-space characters starting with an ASCII
alphanumeric is an atomic unit with a fit-or-flush rule, any other single
character is a unit; one following space is skipped after each unit; the
residual `current_line` is flushed at the end of input. -/
def cjkScan (terms : List (List Char)) (maxLen : Nat) (cur : List Char) :
    List Char → ScanResult
  | [] => { lines := if cur = [] then [] else [cur], found := [] }
  | c :: rest =>
    match findTerm terms (c :: rest) with
    | some t =>
      -- a matched term is nonempty, so `(c :: rest).drop t.length`
      -- equals `rest.drop (t.length - 1)`; the latter form makes the
      -- scan's termination manifest
      let rest' := skipSpace (rest.drop (t.length - 1))
      if cur.length + t.length ≤ maxLen then
        let r := cjkScan terms maxLen (cur ++ t) rest'
        { lines := r.lines, found := t :: r.found }
      else
        let r := cjkScan terms maxLen t rest'
        { lines := cur :: r.lines, found := t :: r.found }
    | none =>
      if isAscii c && c.isAlphanum then
        let w := (c :: rest).takeWhile (· ≠ ' ')
        let rest' := skipSpace ((c :: rest).dropWhile (· ≠ ' '))
        if cur.length + w.length ≤ maxLen then
          cjkScan terms maxLen (cur ++ w) rest'
        else
          let r := cjkScan terms maxLen w rest'
          { lines := cur :: r.lines, found := r.found }
      else
        let rest' := skipSpace rest
        if cur.length + 1 ≤ maxLen then
          cjkScan terms maxLen (cur ++ [c]) rest'
        else
          let r := cjkScan terms maxLen [c] rest'
          { lines := cur :: r.lines, found := r.found }
termination_by l => l.length
decreasing_by
  all_goals simp_wf
  all_goals first
    | exact term_step_lt _ _
    | exact word_step_lt _ _
    | exact char_step_lt _

/-- The `preserved_terms` list hard-coded in `split_lines`. -/
def preserved_terms : List (List Char) := ["Photoroom".toList, "AI".toList]

/-- `split_lines(text, max_length, is_cjk)` with the protected-term list
lifted to a parameter (the Python code hard-codes `preserved_terms`). -/
def split_lines_with (terms : List (List Char)) (text : List Char)
    (max_length : Nat) (is_cjk : Bool) : List (List Char) :=
  if is_cjk then (cjkScan terms max_length [] text).lines
  else wrapWords max_length [] (wordsOf text)

/-- `split_lines` exactly as in the source, with its hard-coded term list. -/
def split_lines (text : List Char) (max_length : Nat) (is_cjk : Bool) :
    List (List Char) :=
  split_lines_with preserved_terms text max_length is_cjk

/-! ## Timecode codec -/

/-- Decimal digit to character. -/
def digitChar : Nat → Char
  | 0 => '0' | 1 => '1' | 2 => '2' | 3 => '3' | 4 => '4'
  | 5 => '5' | 6 => '6' | 7 => '7' | 8 => '8' | 9 => '9'
  | _ => '*'

/-- Decimal digits of `n`, most significant first (as Python's `str(n)`). -/
def natDigits (n : Nat) : List Char :=
  if n < 10 then [digitChar n]
  else natDigits (n / 10) ++ [digitChar (n % 10)]
decreasing_by exact Nat.div_lt_self (by omega) (by omega)

/-- Python's `f"{n:0w}"`: decimal digits left-padded with zeros to width `w`. -/
def padNum (w : Nat) (n : Nat) : List Char :=
  List.replicate (w - (natDigits n).length) '0' ++ natDigits n

/-- `format_timecode(milliseconds)`: `HH:MM:SS,mmm` with two-digit-padded
hours, minutes, seconds and three-digit-padded milliseconds. -/
def format_timecode (milliseconds : Nat) : List Char :=
  let hours := milliseconds / 3600000
  let minutes := (milliseconds % 3600000) / 60000
  let seconds := (milliseconds % 60000) / 1000
  let ms := milliseconds % 1000
  padNum 2 hours ++ ':' :: padNum 2 minutes ++ ':' :: padNum 2 seconds
    ++ ',' :: padNum 3 ms

/-- The separator class of `re.split('[:|,]', timecode)`. -/
def isSep (c : Char) : Bool := c = ':' || c = '|' || c = ','

def splitSepsAux (cur : List Char) : List Char → List (List Char)
  | [] => [cur.reverse]
  | c :: cs =>
    if isSep c then cur.reverse :: splitSepsAux [] cs
    else splitSepsAux (c :: cur) cs

/-- `re.split('[:|,]', l)`. -/
def splitOnSeps (l : List Char) : List (List Char) := splitSepsAux [] l

/-- One decimal digit's value. -/
def digitVal (c : Char) : Option Nat :=
  if c.isDigit then some (c.toNat - 48) else none

def parseNatGo (acc : Nat) : List Char → Option Nat
  | [] => some acc
  | c :: cs =>
    match digitVal c with
    | some d => parseNatGo (acc * 10 + d) cs
    | none => none

/-- Python `int(l)` restricted to plain digit strings (Python also accepts
signs, surrounding whitespace and underscores, none of which occur in
timecodes produced by `format_timecode`); `none` models `ValueError`. -/
def parseNat (l : List Char) : Option Nat :=
  if l = [] then none else parseNatGo 0 l

/-- `parse_timecode(timecode)`: split on `[:|,]`, require exactly four
numeric fields, and recombine into milliseconds.  `none` models the
`ValueError` Python raises on a malformed timecode. -/
def parse_timecode (timecode : List Char) : Option Nat :=
  match splitOnSeps timecode with
  | [h, m, s, ms] =>
    match parseNat h, parseNat m, parseNat s, parseNat ms with
    | some hours, some minutes, some seconds, some milliseconds =>
      some ((hours * 3600 + minutes * 60 + seconds) * 1000 + milliseconds)
    | _, _, _, _ => none
  | _ => none

/-! ## The SRT re-segmentation pass (`process_srt`) -/

/-- The Python exceptions that `process_srt` can raise while handling one
entry (it has no try/except around them). -/
inductive Err where
  /-- `parts[1]` on a one-line entry. -/
  | indexError : Err
  /-- unpacking `times.split(' --> ')` into two names, or `int()` inside
  `parse_timecode`. -/
  | valueError : Err
  /-- `(end_ms - start_ms) // num_lines` with `num_lines == 0`. -/
  | zeroDivisionError : Err
  deriving Repr, DecidableEq

/-- One subtitle cue of the final output list.  Times are `Int`: Python's
`//` is floor division on arbitrary integers, so a reversed-time entry
(`end < start`) yields a negative increment and the emitted sub-cue times
can run backwards — the model must not clamp them. -/
structure Cue where
  index : Nat
  start : Int
  stop : Int
  text : List Char
  deriving Repr, DecidableEq

/-- The re-timing loop of `process_srt`: line `i` (0-based) of a source cue
`[s, e)` becomes a cue with index `cnt + i + 1` (`cnt` = number of entries
already emitted for the whole file), interval
`[s + i*increment, s + (i+1)*increment)` with
`increment = (e - s) // len(lines)` (Python floor division = `Int.fdiv`,
negative when `e < s`), and text
`re.sub(r'[.,。!?！？]$', '', line.strip())`. -/
def retime_cues (cnt : Nat) (s e : Int) (lines : List (List Char)) : List Cue :=
  let increment := Int.fdiv (e - s) (lines.length : Int)
  lines.enum.map fun p =>
    { index := cnt + p.1 + 1
      start := s + (p.1 : Int) * increment
      stop := s + ((p.1 : Int) + 1) * increment
      text := clean p.2 }

/-- Prepend a character to the first piece of a split-in-progress. -/
def consHead (c : Char) : List (List Char) → List (List Char)
  | [] => [[c]]
  | l :: ls => (c :: l) :: ls

/-- Python `content.split('\n\n')`: split on the exact two-newline
separator, leftmost-first, non-overlapping. -/
def splitOn2NL : List Char → List (List Char)
  | '\n' :: '\n' :: rest => [] :: splitOn2NL rest
  | c :: rest => consHead c (splitOn2NL rest)
  | [] => [[]]

/-- Python `entry.split('\n')`. -/
def splitOnNL : List Char → List (List Char)
  | '\n' :: rest => [] :: splitOnNL rest
  | c :: rest => consHead c (splitOnNL rest)
  | [] => [[]]

/-- Python `times.split(' --> ')`. -/
def splitArrow : List Char → List (List Char)
  | ' ' :: '-' :: '-' :: '>' :: ' ' :: rest => [] :: splitArrow rest
  | c :: rest => consHead c (splitArrow rest)
  | [] => [[]]

/-- Parsing and line-splitting of one (non-blank) SRT entry, up to but not
including the index-dependent re-timing: returns the parsed
`(start_ms, end_ms, lines)`, or the exception `process_srt` raises on it.
`maxLen` and `cjk` stand for the values `process_srt` derives from the file
name. -/
def entryCore (maxLen : Nat) (cjk : Bool) (entry : List Char) :
    Except Err (Nat × Nat × List (List Char)) :=
  match splitOnNL entry with
  | _index :: times :: restParts =>
    let text := clean (List.intercalate [' '] restParts)
    let lines := split_lines text maxLen cjk
    match splitArrow times with
    | [start_time, end_time] =>
      match parse_timecode start_time, parse_timecode end_time with
      | some start_ms, some end_ms =>
        if lines.length = 0 then .error .zeroDivisionError
        else .ok (start_ms, end_ms, lines)
      | _, _ => .error .valueError
    | _ => .error .valueError
  | _ => .error .indexError

/-- One entry of the `process_srt` loop: parse, split, re-time.  The parsed
millisecond values (non-negative) enter the re-timer as integers. -/
def process_entry (maxLen : Nat) (cjk : Bool) (cnt : Nat) (entry : List Char) :
    Except Err (List Cue) :=
  (entryCore maxLen cjk entry).map fun r =>
    retime_cues cnt (r.1 : Int) (r.2.1 : Int) r.2.2

/-- The entry loop of `process_srt`: blank entries are skipped, the first
exception aborts the whole file (there is no per-entry recovery in the
code). -/
def processEntries (maxLen : Nat) (cjk : Bool) : Nat → List (List Char) →
    Except Err (List Cue)
  | _, [] => .ok []
  | cnt, e :: es =>
    if trim e = [] then processEntries maxLen cjk cnt es
    else
      match process_entry maxLen cjk cnt e with
      | .error err => .error err
      | .ok cs =>
        match processEntries maxLen cjk (cnt + cs.length) es with
        | .error err => .error err
        | .ok rest => .ok (cs ++ rest)

/-- `process_srt` on a file's content (the cue-list level: file I/O, file
naming and final serialization are outside the engine). -/
def process_srt (content : List Char) (maxLen : Nat) (cjk : Bool) :
    Except Err (List Cue) :=
  processEntries maxLen cjk 0 (splitOn2NL content)

/-! ## The sentence segmenter (`save_transcript_and_create_srt`) -/

/-- One transcript segment `{start, end, text}` as produced by the
transcription collaborator.  `stop` is the source's `end` key (a Lean
keyword).  Times are exact rationals, an idealization of the source's IEEE
doubles: share arithmetic (`duration / N`) differs from the floats in
general, so nothing timing-related is concluded from it for a claim
(see the C4 section); the facts proved below about `segCues` depend only
on its float-independent parts — the `i+j+1` index layout, the sentence
splitting, and the single-sentence branch, which copies `start`/`stop`
verbatim with no arithmetic. -/
structure Seg where
  start : ℚ
  stop : ℚ
  text : List Char
  deriving Repr, DecidableEq

/-- A provisional cue emitted by the sentence segmenter. -/
structure PCue where
  index : Nat
  start : ℚ
  stop : ℚ
  text : List Char
  deriving Repr, DecidableEq

/-- The sentence-terminal class of `re.split(r'([.!?。！？])', text)`. -/
def isSentEnd (c : Char) : Bool :=
  c = '.' || c = '!' || c = '?' || c = '。' || c = '！' || c = '？'

/-- `re.split(r'([.!?。！？])', text)` with the capture group: delimiters are
kept as their own elements, interleaved with the (possibly empty) pieces. -/
def reSplitAux (cur : List Char) : List Char → List (List Char)
  | [] => [cur.reverse]
  | c :: cs =>
    if isSentEnd c then cur.reverse :: [c] :: reSplitAux [] cs
    else reSplitAux (c :: cur) cs

def reSplitCap (text : List Char) : List (List Char) := reSplitAux [] text

/-- Elements at even positions (Python `l[::2]`). -/
def evens {α : Type} : List α → List α
  | [] => []
  | [x] => [x]
  | x :: _ :: xs => x :: evens xs

/-- Elements at odd positions (Python `l[1::2]`). -/
def odds {α : Type} (l : List α) : List α := evens l.tail

/-- The sentence chunks of one segment's (stripped) text:
`zip(parts[::2], parts[1::2] + [''])` re-attaches each terminator to its
sentence; chunks are stripped and empty ones discarded. -/
def sentencesOf (text : List Char) : List (List Char) :=
  let parts := reSplitCap text
  let pairs := (evens parts).zip (odds parts ++ [[]])
  ((pairs.map fun p => p.1 ++ p.2).map trim).filter (· ≠ [])

/-- The cues `save_transcript_and_create_srt` emits for segment number `i`
(0-based): a multi-sentence segment divides its duration into equal
rational shares and numbers its cues `i+j+1`; otherwise one cue numbered
`i+1` spanning the whole segment.  Note an empty/whitespace text still
emits one (empty-texted) cue through the `else` branch. -/
def segCues (i : Nat) (seg : Seg) : List PCue :=
  let text := trim seg.text
  let sentences := sentencesOf text
  if 1 < sentences.length then
    let duration := seg.stop - seg.start
    let time_per_sentence := duration / (sentences.length : ℚ)
    sentences.enum.map fun p =>
      let sent_start := seg.start + (p.1 : ℚ) * time_per_sentence
      let sent_end := sent_start + time_per_sentence
      { index := i + p.1 + 1
        start := sent_start
        stop := sent_end
        text := clean p.2 }
  else
    [{ index := i + 1, start := seg.start, stop := seg.stop,
       text := clean text }]

/-- The provisional cue list for a whole transcript. -/
def transcriptCues (segs : List Seg) : List PCue :=
  (segs.enum.map fun p => segCues p.1 p.2).flatten

/-! ## Lemmas: timecode codec -/

theorem digitVal_digitChar {d : Nat} (h : d < 10) :
    digitVal (digitChar d) = some d := by
  interval_cases d <;> decide

theorem isSep_digitChar {d : Nat} (h : d < 10) :
    isSep (digitChar d) = false := by
  interval_cases d <;> decide

theorem natDigits_lt10 {n : Nat} (h : n < 10) : natDigits n = [digitChar n] := by
  rw [natDigits, if_pos h]

theorem natDigits_two {n : Nat} (h1 : 10 ≤ n) (h2 : n < 100) :
    natDigits n = [digitChar (n / 10), digitChar (n % 10)] := by
  rw [natDigits, if_neg (by omega), natDigits_lt10 (by omega)]
  rfl

theorem natDigits_three {n : Nat} (h1 : 100 ≤ n) (h2 : n < 1000) :
    natDigits n = [digitChar (n / 100), digitChar (n / 10 % 10), digitChar (n % 10)] := by
  rw [natDigits, if_neg (by omega), natDigits_two (by omega) (by omega)]
  rw [Nat.div_div_eq_div_mul]
  rfl

theorem padNum2 {n : Nat} (h : n < 100) :
    padNum 2 n = [digitChar (n / 10), digitChar (n % 10)] := by
  by_cases h1 : n < 10
  · rw [padNum, natDigits_lt10 h1]
    have e1 : n / 10 = 0 := by omega
    have e2 : n % 10 = n := by omega
    rw [e1, e2]
    rfl
  · rw [padNum, natDigits_two (by omega) h]
    rfl

theorem padNum3 {n : Nat} (h : n < 1000) :
    padNum 3 n = [digitChar (n / 100), digitChar (n / 10 % 10), digitChar (n % 10)] := by
  by_cases h1 : n < 10
  · rw [padNum, natDigits_lt10 h1]
    have e1 : n / 100 = 0 := by omega
    have e2 : n / 10 % 10 = 0 := by omega
    have e3 : n % 10 = n := by omega
    rw [e1, e2, e3]
    rfl
  · by_cases h2 : n < 100
    · rw [padNum, natDigits_two (by omega) h2]
      have e1 : n / 100 = 0 := by omega
      have e2 : n / 10 % 10 = n / 10 := by omega
      rw [e1, e2]
      rfl
    · rw [padNum, natDigits_three (by omega) h]
      rfl

theorem parse_format (h m s ms : Nat) (hh : h < 100) (hm : m < 60)
    (hs : s < 60) (hms : ms < 1000) :
    parse_timecode (padNum 2 h ++ ':' :: padNum 2 m ++ ':' :: padNum 2 s
      ++ ',' :: padNum 3 ms)
    = some ((h * 3600 + m * 60 + s) * 1000 + ms) := by
  rw [padNum2 hh, padNum2 (show m < 100 by omega), padNum2 (show s < 100 by omega),
    padNum3 hms]
  have e1 := isSep_digitChar (show h / 10 < 10 by omega)
  have e2 := isSep_digitChar (show h % 10 < 10 by omega)
  have e3 := isSep_digitChar (show m / 10 < 10 by omega)
  have e4 := isSep_digitChar (show m % 10 < 10 by omega)
  have e5 := isSep_digitChar (show s / 10 < 10 by omega)
  have e6 := isSep_digitChar (show s % 10 < 10 by omega)
  have e7 := isSep_digitChar (show ms / 100 < 10 by omega)
  have e8 := isSep_digitChar (show ms / 10 % 10 < 10 by omega)
  have e9 := isSep_digitChar (show ms % 10 < 10 by omega)
  have d1 := digitVal_digitChar (show h / 10 < 10 by omega)
  have d2 := digitVal_digitChar (show h % 10 < 10 by omega)
  have d3 := digitVal_digitChar (show m / 10 < 10 by omega)
  have d4 := digitVal_digitChar (show m % 10 < 10 by omega)
  have d5 := digitVal_digitChar (show s / 10 < 10 by omega)
  have d6 := digitVal_digitChar (show s % 10 < 10 by omega)
  have d7 := digitVal_digitChar (show ms / 100 < 10 by omega)
  have d8 := digitVal_digitChar (show ms / 10 % 10 < 10 by omega)
  have d9 := digitVal_digitChar (show ms % 10 < 10 by omega)
  simp only [parse_timecode, splitOnSeps, splitSepsAux, List.cons_append,
    List.nil_append, e1, e2, e3, e4, e5, e6, e7, e8, e9,
    (by decide : isSep ':' = true), (by decide : isSep ',' = true),
    Bool.false_eq_true, if_false, if_true, List.reverse_cons, List.reverse_nil,
    parseNat, parseNatGo, d1, d2, d3, d4, d5, d6, d7, d8, d9,
    reduceCtorEq, if_neg, Option.some.injEq]
  omega

/-- C9: the timecode codec round-trips: for every `ms < 360000000` (hours
fit in two digits), `parse_timecode (format_timecode ms) = ms`. -/
theorem C9_timecode_roundtrip (ms : Nat) (h : ms < 360000000) :
    parse_timecode (format_timecode ms) = some ms := by
  have h1 : ms / 3600000 < 100 := by omega
  have h2 : ms % 3600000 / 60000 < 60 := by omega
  have h3 : ms % 60000 / 1000 < 60 := by omega
  have h4 : ms % 1000 < 1000 := by omega
  simp only [format_timecode]
  rw [parse_format _ _ _ _ h1 h2 h3 h4]
  congr 1
  omega

/-- Witness for C9 at a concrete input. -/
theorem C9_timecode_roundtrip_witness :
    3723456 < 360000000 ∧ parse_timecode (format_timecode 3723456) = some 3723456 :=
  ⟨by norm_num, C9_timecode_roundtrip 3723456 (by norm_num)⟩

/-! ## Lemmas: the re-timer -/

theorem fst_ge_of_mem_enumFrom {α : Type} {n : Nat} {l : List α} {q : Nat × α}
    (h : q ∈ List.enumFrom n l) : n ≤ q.1 := by
  induction l generalizing n with
  | nil => simp [List.enumFrom] at h
  | cons x xs ih =>
    rw [List.enumFrom_cons] at h
    rcases List.mem_cons.mp h with h | h
    · subst h; exact Nat.le_refl n
    · have := ih h; omega

theorem enumFrom_pairwise_fst {α : Type} (n : Nat) (l : List α) :
    (List.enumFrom n l).Pairwise fun p q => p.1 < q.1 := by
  induction l generalizing n with
  | nil => exact List.Pairwise.nil
  | cons x xs ih =>
    rw [List.enumFrom_cons]
    refine List.Pairwise.cons ?_ (ih (n + 1))
    intro q hq
    have := fst_ge_of_mem_enumFrom hq
    simp only
    omega

theorem enumFrom_map_fun {α β : Type} (f : Nat → β) (n : Nat) (l : List α) :
    (List.enumFrom n l).map (fun p => f p.1) = (List.range' n l.length).map f := by
  induction l generalizing n with
  | nil => rfl
  | cons x xs ih =>
    rw [List.enumFrom_cons, List.length_cons, List.range'_succ]
    simp only [List.map_cons, List.cons.injEq, true_and]
    exact ih (n + 1)

theorem range'_map_shift (cnt k n : Nat) :
    (List.range' k n).map (fun i => cnt + i + 1) = List.range' (cnt + k + 1) n := by
  induction n generalizing k with
  | zero => rfl
  | succ m ih =>
    rw [List.range'_succ, List.range'_succ]
    simp only [List.map_cons, List.cons.injEq, true_and]
    rw [ih (k + 1)]
    congr 1

/-- The indices the re-timer assigns are `cnt+1, cnt+2, ...` in order. -/
theorem retime_map_index (cnt : Nat) (s e : Int) (lines : List (List Char)) :
    (retime_cues cnt s e lines).map Cue.index = List.range' (cnt + 1) lines.length := by
  simp only [retime_cues, List.map_map]
  rw [show (Cue.index ∘ fun p : Nat × List Char =>
      ({ index := cnt + p.1 + 1,
         start := s + (p.1 : Int) * Int.fdiv (e - s) (lines.length : Int),
         stop := s + ((p.1 : Int) + 1) * Int.fdiv (e - s) (lines.length : Int),
         text := clean p.2 } : Cue)) = fun p : Nat × List Char =>
      (fun i => cnt + i + 1) p.1 from rfl]
  rw [show List.enum lines = List.enumFrom 0 lines from rfl]
  rw [enumFrom_map_fun (fun i => cnt + i + 1) 0 lines, range'_map_shift]

/-- The intervals the re-timer assigns, as a function of the line position. -/
theorem retime_map_interval (cnt : Nat) (s e : Int) (lines : List (List Char)) :
    (retime_cues cnt s e lines).map (fun c => (c.start, c.stop))
      = (List.range' 0 lines.length).map
          (fun i : Nat => (s + (i : Int) * Int.fdiv (e - s) (lines.length : Int),
                     s + ((i : Int) + 1) * Int.fdiv (e - s) (lines.length : Int))) := by
  simp only [retime_cues, List.map_map]
  rw [show ((fun c : Cue => (c.start, c.stop)) ∘ fun p : Nat × List Char =>
      ({ index := cnt + p.1 + 1,
         start := s + (p.1 : Int) * Int.fdiv (e - s) (lines.length : Int),
         stop := s + ((p.1 : Int) + 1) * Int.fdiv (e - s) (lines.length : Int),
         text := clean p.2 } : Cue)) = fun p : Nat × List Char =>
      (fun i : Nat => (s + (i : Int) * Int.fdiv (e - s) (lines.length : Int),
                 s + ((i : Int) + 1) * Int.fdiv (e - s) (lines.length : Int))) p.1 from rfl]
  rw [show List.enum lines = List.enumFrom 0 lines from rfl]
  exact enumFrom_map_fun
    (fun i : Nat => (s + (i : Int) * Int.fdiv (e - s) (lines.length : Int),
               s + ((i : Int) + 1) * Int.fdiv (e - s) (lines.length : Int))) 0 lines

/-- For an entry with `start_ms <= end_ms`, the increment is non-negative
and the sub-cues are ordered and non-overlapping. -/
theorem retime_pairwise (cnt : Nat) (s e : Int) (lines : List (List Char))
    (hse : s ≤ e) :
    (retime_cues cnt s e lines).Pairwise
      fun a b => a.stop ≤ b.start ∧ a.start ≤ b.start := by
  have hinc : 0 ≤ Int.fdiv (e - s) (lines.length : Int) :=
    Int.fdiv_nonneg (by omega) (Int.natCast_nonneg _)
  rw [retime_cues]
  rw [List.pairwise_map]
  refine (enumFrom_pairwise_fst 0 lines).imp ?_
  intro p q hpq
  have h1 : (p.1 : Int) + 1 ≤ (q.1 : Int) := by exact_mod_cast hpq
  constructor
  · have h2 := mul_le_mul_of_nonneg_right h1 hinc
    simp only
    linarith
  · have h2 := mul_le_mul_of_nonneg_right (by linarith : (p.1 : Int) ≤ (q.1 : Int)) hinc
    simp only
    linarith

/-- For a reversed-time entry (`end_ms < start_ms`) Python's floor division
makes the increment negative and the sub-cue starts strictly decrease. -/
theorem retime_pairwise_reversed (cnt : Nat) (s e : Int)
    (lines : List (List Char)) (hes : e < s) :
    (retime_cues cnt s e lines).Pairwise fun a b => b.start < a.start := by
  cases lines with
  | nil =>
    rw [retime_cues]
    exact List.Pairwise.nil
  | cons x xs =>
    have hN : (0 : Int) < ((x :: xs).length : Int) := by
      exact_mod_cast Nat.succ_pos xs.length
    have hinc : Int.fdiv (e - s) (((x :: xs).length : Nat) : Int) < 0 := by
      rw [Int.fdiv_eq_ediv _ (le_of_lt hN)]
      exact Int.ediv_neg' (by omega) hN
    rw [retime_cues]
    rw [List.pairwise_map]
    refine (enumFrom_pairwise_fst 0 (x :: xs)).imp ?_
    intro p q hpq
    have h1 : (p.1 : Int) < (q.1 : Int) := by exact_mod_cast hpq
    have h2 := mul_lt_mul_of_neg_right h1 hinc
    simp only
    linarith

/-- C3: for a source cue `[s, e)` split into `N ≥ 1` lines, the re-timer
uses `share = (e - s) // N` (floor division) and assigns sub-cue `i` the
interval `[s + i*share, s + (i+1)*share)`; the first sub-cue starts exactly
at `s`, and the sub-cues are pairwise non-overlapping and ordered. -/
theorem C3_retimer_shares (cnt : Nat) (s e : Int) (lines : List (List Char))
    (hse : s ≤ e) (hne : lines ≠ []) :
    ((retime_cues cnt s e lines).map (fun c => (c.start, c.stop))
      = (List.range' 0 lines.length).map
          (fun i : Nat => (s + (i : Int) * Int.fdiv (e - s) (lines.length : Int),
                     s + ((i : Int) + 1) * Int.fdiv (e - s) (lines.length : Int))))
    ∧ ((retime_cues cnt s e lines).head?).map Cue.start = some s
    ∧ (retime_cues cnt s e lines).Pairwise
        (fun a b => a.stop ≤ b.start ∧ a.start ≤ b.start) := by
  refine ⟨retime_map_interval cnt s e lines, ?_, retime_pairwise cnt s e lines hse⟩
  match lines, hne with
  | l :: ls, _ =>
    simp [retime_cues, List.enum]

/-- Witness for C3 (spec's Scenario 4: `[1000, 2000)` into three lines). -/
theorem C3_retimer_shares_witness :
    ((retime_cues 0 1000 2000 [['a'], ['b'], ['c']]).map
        (fun c => (c.start, c.stop))
      = (List.range' 0 3).map
          (fun i : Nat => ((1000 : Int) + (i : Int) * 333, 1000 + ((i : Int) + 1) * 333)))
    ∧ ((retime_cues 0 1000 2000 [['a'], ['b'], ['c']]).head?).map Cue.start
        = some 1000 := by
  have h := C3_retimer_shares 0 1000 2000 [['a'], ['b'], ['c']]
    (by norm_num) (by simp)
  exact ⟨h.1, h.2.1⟩

/-! ## Lemmas: `process_srt` output indices -/

theorem processEntries_map_index (maxLen : Nat) (cjk : Bool) :
    ∀ (es : List (List Char)) (cnt : Nat) (cues : List Cue),
      processEntries maxLen cjk cnt es = .ok cues →
      cues.map Cue.index = List.range' (cnt + 1) cues.length := by
  intro es
  induction es with
  | nil =>
    intro cnt cues h
    simp only [processEntries] at h
    cases h
    rfl
  | cons e es ih =>
    intro cnt cues h
    simp only [processEntries] at h
    by_cases he : trim e = []
    · rw [if_pos he] at h
      exact ih cnt cues h
    · rw [if_neg he] at h
      cases hpe : process_entry maxLen cjk cnt e with
      | error err => rw [hpe] at h; cases h
      | ok cs =>
        rw [hpe] at h
        dsimp only at h
        cases hrest : processEntries maxLen cjk (cnt + cs.length) es with
        | error err => rw [hrest] at h; cases h
        | ok rest =>
          rw [hrest] at h
          cases h
          have hcs : cs.map Cue.index = List.range' (cnt + 1) cs.length := by
            simp only [process_entry] at hpe
            cases hec : entryCore maxLen cjk e with
            | error err => rw [hec] at hpe; cases hpe
            | ok r =>
              rw [hec] at hpe
              simp only [Except.map] at hpe
              cases hpe
              rw [retime_map_index]
              congr 1
              simp [retime_cues]
          have hr := ih (cnt + cs.length) rest hrest
          rw [List.map_append, hcs, hr, List.length_append]
          rw [show cnt + cs.length + 1 = (cnt + 1) + cs.length by omega]
          rw [List.range'_append_1]
          congr 1
          omega

theorem retime_start_lt_stop (cnt : Nat) (s e : Int) (lines : List (List Char))
    (hse : s ≤ e) :
    ∀ c ∈ retime_cues cnt s e lines,
      (c.start < c.stop ↔ (lines.length : Int) ≤ e - s) := by
  intro c hc
  simp only [retime_cues, List.mem_map] at hc
  obtain ⟨p, hp, rfl⟩ := hc
  have hN : (0 : Int) < (lines.length : Int) := by
    cases lines with
    | nil => simp [List.enum, List.enumFrom] at hp
    | cons x xs => exact_mod_cast Nat.succ_pos xs.length
  simp only
  rw [Int.fdiv_eq_ediv _ (le_of_lt hN)]
  have hexp : ((p.1 : Int) + 1) * ((e - s) / (lines.length : Int))
      = (p.1 : Int) * ((e - s) / (lines.length : Int))
        + (e - s) / (lines.length : Int) := by ring
  constructor
  · intro hlt
    have hq : (1 : Int) ≤ (e - s) / (lines.length : Int) := by linarith
    have := (Int.le_ediv_iff_mul_le hN).mp hq
    linarith
  · intro hle
    have hq : (1 : Int) ≤ (e - s) / (lines.length : Int) :=
      (Int.le_ediv_iff_mul_le hN).mpr (by linarith)
    linarith

/-- The spec's Cue invariants for a final cue list, as an executable check:
`start_ms < end_ms` for every cue, indices contiguous from 1 in output
order, consecutive intervals non-overlapping with non-decreasing starts. -/
def consecOkB : List Cue → Bool
  | a :: b :: r =>
    (decide (a.stop ≤ b.start) && decide (a.start ≤ b.start)) && consecOkB (b :: r)
  | _ => true

def cueInvariantsB (cs : List Cue) : Bool :=
  cs.all (fun c => decide (c.start < c.stop))
    && decide (cs.map Cue.index = List.range' 1 cs.length)
    && consecOkB cs

/-- C2 counterexample.  (i) The provisional list of the sentence segmenter
violates index contiguity: a two-sentence segment followed by another
segment yields indices `1, 2, 2`.  (ii) A final list from `process_srt`
violates `start_ms < end_ms`: a 1 ms cue split into two lines gets
`increment = 0`, hence two empty intervals.  (iii) A final list violates
non-decreasing starts when the input file's cues are out of order.
(iv) A reversed-time entry (`end < start`) gets a negative floor-divided
increment, so even within one source cue the sub-cue starts decrease. -/
theorem C2_invariants_counterexample :
    ((transcriptCues [⟨0, 4, "A. B.".toList⟩, ⟨4, 5, "C".toList⟩]).map PCue.index
        = [1, 2, 2]
      ∧ [1, 2, 2] ≠ List.range' 1
          (transcriptCues [⟨0, 4, "A. B.".toList⟩, ⟨4, 5, "C".toList⟩]).length)
    ∧ (process_srt
        ("1\n00:00:00,000 --> 00:00:00,001\nabcdefghij klmnopqrst uvw".toList)
        24 false).toOption.map cueInvariantsB = some false
    ∧ (process_srt
        ("1\n00:00:01,000 --> 00:00:02,000\nhi\n\n2\n00:00:00,000 --> 00:00:00,500\nyo".toList)
        24 false).toOption.map cueInvariantsB = some false
    ∧ (process_srt
        ("1\n00:00:02,000 --> 00:00:01,000\nabcd efgh".toList)
        6 false).toOption.map cueInvariantsB = some false := by
  refine ⟨⟨by decide, by decide⟩, by decide, by decide, by decide⟩

/-- C2 (amended): the final list written by `process_srt` always has indices
contiguous starting at 1 in output order.  Within the sub-cues of one
source entry whose `start_ms ≤ end_ms`, intervals are non-overlapping with
non-decreasing `start_ms`, and a sub-cue satisfies `start_ms < end_ms` iff
the source duration is at least the number of lines (`increment ≥ 1`); for
a reversed-time entry (`end_ms < start_ms`) the floor-divided increment is
negative and the sub-cue starts strictly decrease.  (The provisional list
and cross-entry ordering do not satisfy the claimed invariants, see the
counterexample.) -/
theorem C2_invariants_amended (content : List Char) (maxLen : Nat) (cjk : Bool)
    (cnt : Nat) (s e : Int) (lines : List (List Char)) :
    (∀ cues, process_srt content maxLen cjk = .ok cues →
        cues.map Cue.index = List.range' 1 cues.length)
    ∧ (s ≤ e → (retime_cues cnt s e lines).Pairwise
        (fun a b => a.stop ≤ b.start ∧ a.start ≤ b.start))
    ∧ (s ≤ e → ∀ c ∈ retime_cues cnt s e lines,
        (c.start < c.stop ↔ (lines.length : Int) ≤ e - s))
    ∧ (e < s → (retime_cues cnt s e lines).Pairwise
        (fun a b => b.start < a.start)) := by
  refine ⟨?_, retime_pairwise cnt s e lines, retime_start_lt_stop cnt s e lines,
    retime_pairwise_reversed cnt s e lines⟩
  intro cues h
  exact processEntries_map_index maxLen cjk (splitOn2NL content) 0 cues h

/-- Witness for C2 (amended) at a concrete input. -/
theorem C2_invariants_witness :
    ([⟨1, 0, 1000, "hi".toList⟩] : List Cue).map Cue.index = List.range' 1 1 :=
  (C2_invariants_amended ("1\n00:00:00,000 --> 00:00:01,000\nhi".toList)
      24 false 0 0 0 []).1 [⟨1, 0, 1000, "hi".toList⟩] (by rfl)

/-! ## Error behaviour on malformed entries (C7, C8) -/

def isOkB {α : Type} : Except Err α → Bool
  | .ok _ => true
  | .error _ => false

theorem isOkB_process_entry (maxLen : Nat) (cjk : Bool) (cnt : Nat)
    (e : List Char) :
    isOkB (process_entry maxLen cjk cnt e) = isOkB (entryCore maxLen cjk e) := by
  simp only [process_entry]
  cases hec : entryCore maxLen cjk e <;> rfl

/-- C7 (amended): a malformed entry (missing time-range line, missing arrow
separator, or unparseable timecode) raises an exception that aborts the
whole file's processing: no warning, no recovery, and no cue list is
returned — not even the well-formed entries'. -/
theorem C7_malformed_amended (content : List Char) (maxLen : Nat) (cjk : Bool)
    (e : List Char) (h1 : e ∈ splitOn2NL content) (h2 : trim e ≠ [])
    (h3 : isOkB (entryCore maxLen cjk e) = false) :
    ∀ cues, process_srt content maxLen cjk ≠ .ok cues := by
  have main : ∀ (es : List (List Char)) (cnt : Nat), e ∈ es →
      ∀ cues, processEntries maxLen cjk cnt es ≠ .ok cues := by
    intro es
    induction es with
    | nil => intro cnt hmem; simp at hmem
    | cons x xs ih =>
      intro cnt hmem cues hok
      simp only [processEntries] at hok
      by_cases hx : trim x = []
      · rw [if_pos hx] at hok
        rcases List.mem_cons.mp hmem with rfl | hmem'
        · exact h2 hx
        · exact ih cnt hmem' cues hok
      · rw [if_neg hx] at hok
        rcases List.mem_cons.mp hmem with rfl | hmem'
        · cases hpe : process_entry maxLen cjk cnt e with
          | error err =>
            rw [hpe] at hok
            exact absurd hok (by simp)
          | ok cs =>
            have hiso := isOkB_process_entry maxLen cjk cnt e
            rw [hpe, h3] at hiso
            simp [isOkB] at hiso
        · cases hpe : process_entry maxLen cjk cnt x with
          | error err =>
            rw [hpe] at hok
            exact absurd hok (by simp)
          | ok cs =>
            rw [hpe] at hok
            dsimp only at hok
            cases hrest : processEntries maxLen cjk (cnt + cs.length) xs with
            | error err =>
              rw [hrest] at hok
              exact absurd hok (by simp)
            | ok rest => exact absurd hrest (ih (cnt + cs.length) hmem' rest)
  exact fun cues => main (splitOn2NL content) 0 h1 cues

/-- C7 counterexample: the same well-formed entry parses on its own, but
adding a malformed entry (time-range line without the ` --> ` separator)
makes `process_srt` abort with an exception instead of dropping only that
entry and continuing. -/
theorem C7_malformed_counterexample :
    process_srt ("1\n00:00:00,000 --> 00:00:01,000\nok".toList) 24 false
        = .ok [⟨1, 0, 1000, "ok".toList⟩]
    ∧ process_srt
        ("1\n00:00:00,000 --> 00:00:01,000\nok\n\n2\n00:00:01,000 00:00:02,000\nbad".toList)
        24 false = .error .valueError :=
  ⟨by rfl, by rfl⟩

/-- Witness for C7 (amended) at a concrete input. -/
theorem C7_malformed_witness :
    process_srt
      ("1\n00:00:00,000 --> 00:00:01,000\nok\n\n2\n00:00:01,000 00:00:02,000\nbad".toList)
      24 false ≠ .ok [] :=
  C7_malformed_amended _ 24 false ("2\n00:00:01,000 00:00:02,000\nbad".toList)
    (by decide) (by decide) (by rfl) []

/-- C8: the claim (and spec) require an empty or all-whitespace cue text to
yield zero chunks without crashing; the code instead (a) raises
`ZeroDivisionError` in `process_srt` (`increment = (end_ms - start_ms) //
num_lines` with `num_lines == 0`), and (b) emits a cue with empty text (not
zero cues) in `save_transcript_and_create_srt`. -/
theorem C8_empty_text_bug :
    process_srt ("1\n00:00:00,000 --> 00:00:01,000\n".toList) 24 false
        = .error .zeroDivisionError
    ∧ transcriptCues [⟨0, 1, []⟩] = [⟨1, 0, 1, []⟩] :=
  ⟨by rfl, by rfl⟩

/-! ## Punctuation stripping at emission (C6) -/

/-- The texts the re-timer emits are exactly the lines passed through
`clean` (strip whitespace, then at most one trailing `PUNCT` character) —
every line, interior ones included. -/
theorem retime_map_text (cnt : Nat) (s e : Int) (lines : List (List Char)) :
    (retime_cues cnt s e lines).map Cue.text = lines.map clean := by
  simp only [retime_cues, List.map_map]
  rw [show (Cue.text ∘ fun p : Nat × List Char =>
      ({ index := cnt + p.1 + 1,
         start := s + (p.1 : Int) * Int.fdiv (e - s) (lines.length : Int),
         stop := s + ((p.1 : Int) + 1) * Int.fdiv (e - s) (lines.length : Int),
         text := clean p.2 } : Cue)) = clean ∘ Prod.snd from rfl]
  rw [← List.map_map]
  rw [show List.enum lines = List.enumFrom 0 lines from rfl, List.enumFrom_map_snd]

/-- `stripEndPunct` removes at most one character: exactly the last one,
and only when it lies in `PUNCT`. -/
theorem stripEndPunct_spec (l : List Char) :
    (stripEndPunct l = l ∧ ∀ c, l.getLast? = some c → c ∉ PUNCT)
    ∨ (∃ c, l.getLast? = some c ∧ c ∈ PUNCT ∧ stripEndPunct l = l.dropLast) := by
  cases hl : l.getLast? with
  | none =>
    left
    refine ⟨by simp [stripEndPunct, hl], ?_⟩
    intro c hc
    simp at hc
  | some c =>
    by_cases hc : c ∈ PUNCT
    · right
      exact ⟨c, rfl, hc, by simp [stripEndPunct, hl, hc]⟩
    · left
      refine ⟨by simp [stripEndPunct, hl, hc], ?_⟩
      intro c' hc'
      cases hc'
      exact hc

/-- C6 (amended): at most one trailing character is stripped per emitted
line, only when that character is one of `. , 。 ! ? ！ ？` (the set
includes the ASCII comma, which is not sentence-terminal, and excludes the
full-width comma `，`), but the stripping (with whitespace trimming) is
applied to EVERY emitted line — interior lines included — not only to the
final one.  Interior (non-trailing) characters are never removed. -/
theorem C6_strip_amended (cnt : Nat) (s e : Int) (lines : List (List Char))
    (l : List Char) :
    ((retime_cues cnt s e lines).map Cue.text = lines.map clean)
    ∧ ((stripEndPunct (trim l) = trim l
          ∧ ∀ c, (trim l).getLast? = some c → c ∉ PUNCT)
        ∨ (∃ c, (trim l).getLast? = some c ∧ c ∈ PUNCT
            ∧ stripEndPunct (trim l) = (trim l).dropLast)) :=
  ⟨retime_map_text cnt s e lines, stripEndPunct_spec (trim l)⟩

/-- Witness for C6 (amended) at a concrete input. -/
theorem C6_strip_witness :
    (retime_cues 0 0 1000 ["abcd,".toList, "efgh".toList]).map Cue.text
      = ["abcd,".toList, "efgh".toList].map clean :=
  (C6_strip_amended 0 0 1000 ["abcd,".toList, "efgh".toList] "xy!".toList).1

/-- C6 counterexample: the interior (non-final) line `"abcd,"` loses its
trailing comma: the code strips from every line, not only the final one,
and the stripped class contains the non-sentence-terminal comma, so an
interior line does not keep its content unmodified. -/
theorem C6_strip_counterexample :
    (process_srt ("1\n00:00:00,000 --> 00:00:01,000\nabcd, efgh".toList)
        6 false).toOption.map (fun cs => cs.map Cue.text)
      = some ["abcd".toList, "efgh".toList]
    ∧ "abcd".toList ≠ "abcd,".toList :=
  ⟨by rfl, by decide⟩

/-! ## The sentence segmenter's timing (C4)

The claim's share arithmetic is computed by the source in IEEE doubles
(`time_per_sentence = duration / len(sentences)`, `sent_end = sent_start +
time_per_sentence`) with no forcing of the last chunk's end, so the final
chunk's end generally differs from the segment end (duration `1.0` with
three chunks ends at `0.9999999999999999`, emitted as 999 ms).  Float
arithmetic is outside this embedding; only the float-exact Scenario 1
below is provable of the program. -/

/-- Spec Scenario 1: `{start: 0, end: 4000, text: "Hello world. How are
you?"}` yields two chunks of 2000 each with the punctuation stripped.
Every intermediate value here (`4000 / 2`, `0 + 1 * 2000.0`, ...) is an
integer below `2^53`, so the Python float computation is exact and this
equality, proved in the rational model, holds of the program as well. -/
theorem segCues_scenario :
    segCues 0 ⟨0, 4000, "Hello world. How are you?".toList⟩
      = [⟨1, 0, 2000, "Hello world".toList⟩,
         ⟨2, 2000, 4000, "How are you".toList⟩] := by
  have hs : sentencesOf (trim ("Hello world. How are you?".toList))
      = ["Hello world.".toList, "How are you?".toList] := by decide
  simp only [segCues, hs, List.length_cons, List.length_nil, List.enum,
    List.enumFrom, List.map_cons, List.map_nil]
  norm_num [PCue.mk.injEq]
  decide

theorem cjkScan_nil (terms : List (List Char)) (maxLen : Nat) (cur : List Char) :
    cjkScan terms maxLen cur [] = ⟨if cur = [] then [] else [cur], []⟩ := by
  rw [cjkScan]

theorem cjkScan_term_fit {terms : List (List Char)} {maxLen : Nat}
    {cur : List Char} {c : Char} {cs t : List Char}
    (hfind : findTerm terms (c :: cs) = some t)
    (hfit : cur.length + t.length ≤ maxLen) :
    cjkScan terms maxLen cur (c :: cs)
      = ⟨(cjkScan terms maxLen (cur ++ t) (skipSpace (cs.drop (t.length - 1)))).lines,
         t :: (cjkScan terms maxLen (cur ++ t) (skipSpace (cs.drop (t.length - 1)))).found⟩ := by
  rw [cjkScan, hfind]
  simp [hfit]

theorem cjkScan_term_flush {terms : List (List Char)} {maxLen : Nat}
    {cur : List Char} {c : Char} {cs t : List Char}
    (hfind : findTerm terms (c :: cs) = some t)
    (hfit : ¬ cur.length + t.length ≤ maxLen) :
    cjkScan terms maxLen cur (c :: cs)
      = ⟨cur :: (cjkScan terms maxLen t (skipSpace (cs.drop (t.length - 1)))).lines,
         t :: (cjkScan terms maxLen t (skipSpace (cs.drop (t.length - 1)))).found⟩ := by
  rw [cjkScan, hfind]
  simp [hfit]

theorem cjkScan_word_fit {terms : List (List Char)} {maxLen : Nat}
    {cur : List Char} {c : Char} {cs : List Char}
    (hfind : findTerm terms (c :: cs) = none)
    (hword : (isAscii c && c.isAlphanum) = true)
    (hfit : cur.length + ((c :: cs).takeWhile (· ≠ ' ')).length ≤ maxLen) :
    cjkScan terms maxLen cur (c :: cs)
      = cjkScan terms maxLen (cur ++ (c :: cs).takeWhile (· ≠ ' '))
          (skipSpace ((c :: cs).dropWhile (· ≠ ' '))) := by
  have hfit' : cur.length
      + ((c :: cs).takeWhile (fun x => !decide (x = ' '))).length ≤ maxLen := by
    simpa using hfit
  rw [cjkScan, hfind]
  simp [hword, hfit']

theorem cjkScan_word_flush {terms : List (List Char)} {maxLen : Nat}
    {cur : List Char} {c : Char} {cs : List Char}
    (hfind : findTerm terms (c :: cs) = none)
    (hword : (isAscii c && c.isAlphanum) = true)
    (hfit : ¬ cur.length + ((c :: cs).takeWhile (· ≠ ' ')).length ≤ maxLen) :
    cjkScan terms maxLen cur (c :: cs)
      = ⟨cur :: (cjkScan terms maxLen ((c :: cs).takeWhile (· ≠ ' '))
            (skipSpace ((c :: cs).dropWhile (· ≠ ' ')))).lines,
         (cjkScan terms maxLen ((c :: cs).takeWhile (· ≠ ' '))
            (skipSpace ((c :: cs).dropWhile (· ≠ ' ')))).found⟩ := by
  have hfit' : ¬ cur.length
      + ((c :: cs).takeWhile (fun x => !decide (x = ' '))).length ≤ maxLen := by
    simpa using hfit
  rw [cjkScan, hfind]
  simp [hword, hfit']

theorem cjkScan_char_fit {terms : List (List Char)} {maxLen : Nat}
    {cur : List Char} {c : Char} {cs : List Char}
    (hfind : findTerm terms (c :: cs) = none)
    (hword : ¬ (isAscii c && c.isAlphanum) = true)
    (hfit : cur.length + 1 ≤ maxLen) :
    cjkScan terms maxLen cur (c :: cs)
      = cjkScan terms maxLen (cur ++ [c]) (skipSpace cs) := by
  rw [cjkScan, hfind]
  simp [hword, hfit]

theorem cjkScan_char_flush {terms : List (List Char)} {maxLen : Nat}
    {cur : List Char} {c : Char} {cs : List Char}
    (hfind : findTerm terms (c :: cs) = none)
    (hword : ¬ (isAscii c && c.isAlphanum) = true)
    (hfit : ¬ cur.length + 1 ≤ maxLen) :
    cjkScan terms maxLen cur (c :: cs)
      = ⟨cur :: (cjkScan terms maxLen [c] (skipSpace cs)).lines,
         (cjkScan terms maxLen [c] (skipSpace cs)).found⟩ := by
  rw [cjkScan, hfind]
  simp [hword, hfit]



theorem findTerm_mem {terms : List (List Char)} {rest t : List Char}
    (h : findTerm terms rest = some t) : t ∈ terms :=
  List.mem_of_find?_eq_some h

theorem word_ne_nil_no_space {c : Char} {cs : List Char}
    (hword : (isAscii c && c.isAlphanum) = true) :
    ((c :: cs).takeWhile (· ≠ ' ') ≠ [] ∧ ' ' ∉ (c :: cs).takeWhile (· ≠ ' ')) := by
  have hc : c ≠ ' ' := by
    intro h
    subst h
    have : (isAscii ' ' && Char.isAlphanum ' ') = false := by decide
    rw [this] at hword
    cases hword
  constructor
  · rw [List.takeWhile_cons_of_pos (by simp [hc])]
    simp
  · intro hsp
    have := List.mem_takeWhile_imp hsp
    simp at this

theorem cjkScan_lines_good (terms : List (List Char)) (maxLen : Nat)
    (hmax : 1 ≤ maxLen) :
    ∀ (cur text : List Char),
      (cur.length ≤ maxLen ∨ cur ∈ terms ∨ (cur ≠ [] ∧ ' ' ∉ cur)) →
      ∀ l ∈ (cjkScan terms maxLen cur text).lines,
        l.length ≤ maxLen ∨ l ∈ terms ∨ (l ≠ [] ∧ ' ' ∉ l) := by
  intro cur text
  induction cur, text using cjkScan.induct terms maxLen with
  | case1 cur =>
    intro hcur l hl
    rw [cjkScan_nil] at hl
    by_cases hc : cur = []
    · simp [hc] at hl
    · simp [hc] at hl
      subst hl
      exact hcur
  | case2 cur c cs t hfind rest' hfit ih =>
    intro hcur l hl
    rw [cjkScan_term_fit hfind hfit] at hl
    refine ih ?_ l hl
    left
    rw [List.length_append]
    omega
  | case3 cur c cs t hfind rest' hfit ih =>
    intro hcur l hl
    rw [cjkScan_term_flush hfind hfit] at hl
    rcases List.mem_cons.mp hl with rfl | hl'
    · exact hcur
    · exact ih (Or.inr (Or.inl (findTerm_mem hfind))) l hl'
  | case4 cur c cs hfind hword w rest' hfit ih =>
    intro hcur l hl
    rw [cjkScan_word_fit hfind hword hfit] at hl
    refine ih ?_ l hl
    left
    rw [List.length_append]
    omega
  | case5 cur c cs hfind hword w rest' hfit ih =>
    intro hcur l hl
    rw [cjkScan_word_flush hfind hword hfit] at hl
    rcases List.mem_cons.mp hl with rfl | hl'
    · exact hcur
    · exact ih (Or.inr (Or.inr (word_ne_nil_no_space hword))) l hl'
  | case6 cur c cs hfind hword rest' hfit ih =>
    intro hcur l hl
    rw [cjkScan_char_fit hfind hword hfit] at hl
    refine ih ?_ l hl
    left
    rw [List.length_append]
    simpa using hfit
  | case7 cur c cs hfind hword rest' hfit ih =>
    intro hcur l hl
    rw [cjkScan_char_flush hfind hword hfit] at hl
    rcases List.mem_cons.mp hl with rfl | hl'
    · exact hcur
    · refine ih ?_ l hl'
      left
      simpa using hmax



theorem wordsAux_good :
    ∀ (l cur : List Char), (∀ c ∈ cur, isPySpace c = false) →
      ∀ w ∈ wordsAux cur l, w ≠ [] ∧ ∀ c ∈ w, isPySpace c = false := by
  intro l
  induction l with
  | nil =>
    intro cur hcur w hw
    simp only [wordsAux] at hw
    by_cases hc : cur = []
    · simp [hc] at hw
    · simp [hc] at hw
      subst hw
      refine ⟨by simpa using hc, ?_⟩
      intro c hcrev
      exact hcur c (List.mem_reverse.mp hcrev)
  | cons c cs ih =>
    intro cur hcur w hw
    simp only [wordsAux] at hw
    by_cases hsp : isPySpace c = true
    · rw [if_pos hsp] at hw
      by_cases hc : cur = []
      · rw [if_pos hc] at hw
        exact ih [] (by simp) w hw
      · rw [if_neg hc] at hw
        rcases List.mem_cons.mp hw with rfl | hw'
        · exact ⟨by simpa using hc, fun d hd => hcur d (List.mem_reverse.mp hd)⟩
        · exact ih [] (by simp) w hw'
    · rw [if_neg hsp] at hw
      refine ih (c :: cur) ?_ w hw
      intro d hd
      rcases List.mem_cons.mp hd with rfl | hd'
      · simpa using hsp
      · exact hcur d hd'

theorem wordsOf_good {text w : List Char} (hw : w ∈ wordsOf text) :
    w ≠ [] ∧ ∀ c ∈ w, isPySpace c = false :=
  wordsAux_good text [] (by simp) w hw

theorem wrapWords_good (maxLen : Nat) (W : List (List Char)) :
    ∀ (ws : List (List Char)) (cur : List Char),
      (∀ w ∈ ws, w ∈ W) → (cur.length ≤ maxLen ∨ cur ∈ W) →
      ∀ l ∈ wrapWords maxLen cur ws, l.length ≤ maxLen ∨ l ∈ W := by
  intro ws
  induction ws with
  | nil =>
    intro cur hws hcur l hl
    simp only [wrapWords] at hl
    by_cases hc : cur = []
    · simp [hc] at hl
    · simp [hc] at hl
      subst hl
      exact hcur
  | cons w ws ih =>
    intro cur hws hcur l hl
    simp only [wrapWords] at hl
    by_cases hfit : cur.length + (w.length + 1) ≤ maxLen
    · rw [if_pos hfit] at hl
      refine ih _ (fun x hx => hws x (List.mem_cons_of_mem _ hx)) ?_ l hl
      left
      by_cases hc : cur = []
      · simp [hc]
        omega
      · simp only [hc, if_false, List.length_append, List.length_cons]
        omega
    · rw [if_neg hfit] at hl
      rcases List.mem_cons.mp hl with rfl | hl'
      · exact hcur
      · exact ih w (fun x hx => hws x (List.mem_cons_of_mem _ hx))
          (Or.inr (hws w (List.mem_cons_self w ws))) l hl'

/-- C5: every line produced by `split_lines` has length at most
`max_line_length`, except a line that is a single unsplittable word or
protected term (a nonempty, space-free atomic unit placed alone on its own
line, never truncated). -/
theorem C5_line_length_bound (terms : List (List Char)) (text : List Char)
    (maxLen : Nat) (is_cjk : Bool) (hmax : 1 ≤ maxLen) :
    ∀ l ∈ split_lines_with terms text maxLen is_cjk,
      l.length ≤ maxLen ∨ l ∈ terms ∨ (l ≠ [] ∧ ' ' ∉ l) := by
  cases is_cjk with
  | true =>
    intro l hl
    simp only [split_lines_with, if_true] at hl
    exact cjkScan_lines_good terms maxLen hmax [] text (Or.inl (by simp)) l hl
  | false =>
    intro l hl
    simp only [split_lines_with, Bool.false_eq_true, if_false] at hl
    have hg := wrapWords_good maxLen (wordsOf text) (wordsOf text) []
      (fun w hw => hw) (Or.inl (by simp)) l hl
    rcases hg with h | h
    · exact Or.inl h
    · right; right
      have hw := wordsOf_good h
      refine ⟨hw.1, ?_⟩
      intro hsp
      have := hw.2 ' ' hsp
      simp [isPySpace] at this

/-- Witness for C5 at a concrete input. -/
theorem C5_line_length_bound_witness :
    ("hello".toList).length ≤ 5
      ∨ "hello".toList ∈ preserved_terms
      ∨ ("hello".toList ≠ [] ∧ ' ' ∉ "hello".toList) :=
  C5_line_length_bound preserved_terms ("hello world foo".toList) 5 false
    (by norm_num) ("hello".toList) (by decide)

/-! ## The reserved separator quirk (C10) -/

/-- C10: in non-logographic mode the fit test
`len(current_line) + (len(word) + 1) <= max_length` reserves a separator
even when `current_line` is empty, so a first word of length
`>= max_line_length` makes the output begin with an empty line; and any
line containing a space fits the budget, so a word of exactly
`max_line_length` characters (which would need `max_line_length + 2`
characters to share a line) is never joined with another word. -/
theorem C10_empty_first_line (text : List Char) (maxLen : Nat)
    (w : List Char) (ws : List (List Char))
    (h1 : wordsOf text = w :: ws) (h2 : maxLen ≤ w.length) :
    (split_lines text maxLen false).head? = some []
    ∧ ∀ l ∈ split_lines text maxLen false, ' ' ∈ l → l.length ≤ maxLen := by
  constructor
  · simp only [split_lines, split_lines_with, Bool.false_eq_true, if_false, h1]
    rw [show wrapWords maxLen [] (w :: ws) = [] :: wrapWords maxLen w ws from by
      rw [wrapWords, if_neg (by simp; omega)]]
    rfl
  · intro l hl hsp
    simp only [split_lines, split_lines_with, Bool.false_eq_true, if_false] at hl
    have hg := wrapWords_good maxLen (wordsOf text) (wordsOf text) []
      (fun x hx => hx) (Or.inl (by simp)) l hl
    rcases hg with h | h
    · exact h
    · exact absurd ((wordsOf_good h).2 ' ' hsp) (by decide)

/-- Witness for C10 at a concrete input. -/
theorem C10_empty_first_line_witness :
    (split_lines ("abcdefgh xy".toList) 8 false).head? = some [] :=
  (C10_empty_first_line ("abcdefgh xy".toList) 8 ("abcdefgh".toList)
    ["xy".toList] (by decide) (by decide)).1

/-! ## Protected-term integrity (C1) -/

theorem cjkScan_infix_line (terms : List (List Char)) (maxLen : Nat) :
    ∀ (cur text : List Char), ∀ t, t ≠ [] → t <:+: cur →
      ∃ l ∈ (cjkScan terms maxLen cur text).lines, t <:+: l := by
  intro cur text
  induction cur, text using cjkScan.induct terms maxLen with
  | case1 cur =>
    intro t ht hinf
    rw [cjkScan_nil]
    have hc : cur ≠ [] := by
      intro h
      subst h
      exact ht (List.eq_nil_of_infix_nil hinf)
    rw [if_neg hc]
    exact ⟨cur, by simp, hinf⟩
  | case2 cur c cs t' hfind rest' hfit ih =>
    intro t ht hinf
    rw [cjkScan_term_fit hfind hfit]
    exact ih t ht (hinf.trans (List.prefix_append cur t').isInfix)
  | case3 cur c cs t' hfind rest' hfit ih =>
    intro t ht hinf
    rw [cjkScan_term_flush hfind hfit]
    exact ⟨cur, by simp, hinf⟩
  | case4 cur c cs hfind hword w rest' hfit ih =>
    intro t ht hinf
    rw [cjkScan_word_fit hfind hword hfit]
    exact ih t ht (hinf.trans (List.prefix_append cur _).isInfix)
  | case5 cur c cs hfind hword w rest' hfit ih =>
    intro t ht hinf
    rw [cjkScan_word_flush hfind hword hfit]
    exact ⟨cur, by simp, hinf⟩
  | case6 cur c cs hfind hword rest' hfit ih =>
    intro t ht hinf
    rw [cjkScan_char_fit hfind hword hfit]
    exact ih t ht (hinf.trans (List.prefix_append cur [c]).isInfix)
  | case7 cur c cs hfind hword rest' hfit ih =>
    intro t ht hinf
    rw [cjkScan_char_flush hfind hword hfit]
    exact ⟨cur, by simp, hinf⟩

theorem cjkScan_found_in_line (terms : List (List Char)) (maxLen : Nat) :
    ∀ (cur text : List Char), ∀ t ∈ (cjkScan terms maxLen cur text).found,
      ∃ l ∈ (cjkScan terms maxLen cur text).lines, t <:+: l := by
  intro cur text
  induction cur, text using cjkScan.induct terms maxLen with
  | case1 cur =>
    intro t ht
    rw [cjkScan_nil] at ht
    simp at ht
  | case2 cur c cs t' hfind rest' hfit ih =>
    intro t ht
    simp only [cjkScan_term_fit hfind hfit] at ht ⊢
    rcases List.mem_cons.mp ht with rfl | ht'
    · exact cjkScan_infix_line terms maxLen (cur ++ t) rest' t
        (findTerm_ne_nil hfind) (List.suffix_append cur t).isInfix
    · exact ih t ht'
  | case3 cur c cs t' hfind rest' hfit ih =>
    intro t ht
    simp only [cjkScan_term_flush hfind hfit] at ht ⊢
    rcases List.mem_cons.mp ht with rfl | ht'
    · obtain ⟨l, hl, hinf⟩ := cjkScan_infix_line terms maxLen t rest' t
        (findTerm_ne_nil hfind) (List.infix_refl t)
      exact ⟨l, List.mem_cons_of_mem cur hl, hinf⟩
    · obtain ⟨l, hl, hinf⟩ := ih t ht'
      exact ⟨l, List.mem_cons_of_mem cur hl, hinf⟩
  | case4 cur c cs hfind hword w rest' hfit ih =>
    intro t ht
    simp only [cjkScan_word_fit hfind hword hfit] at ht ⊢
    exact ih t ht
  | case5 cur c cs hfind hword w rest' hfit ih =>
    intro t ht
    simp only [cjkScan_word_flush hfind hword hfit] at ht ⊢
    obtain ⟨l, hl, hinf⟩ := ih t ht
    exact ⟨l, List.mem_cons_of_mem cur hl, hinf⟩
  | case6 cur c cs hfind hword rest' hfit ih =>
    intro t ht
    simp only [cjkScan_char_fit hfind hword hfit] at ht ⊢
    exact ih t ht
  | case7 cur c cs hfind hword rest' hfit ih =>
    intro t ht
    simp only [cjkScan_char_flush hfind hword hfit] at ht ⊢
    obtain ⟨l, hl, hinf⟩ := ih t ht
    exact ⟨l, List.mem_cons_of_mem cur hl, hinf⟩

/-- C1: every protected-term occurrence the CJK scanner matches is emitted
verbatim (the exact characters of the term, hence its original casing) as
a contiguous substring of a single output line of `split_lines`; no
matched term is ever split across two output lines. -/
theorem C1_protected_term_integrity (terms : List (List Char))
    (text : List Char) (maxLen : Nat) (hmax : 1 ≤ maxLen) :
    ∀ t ∈ (cjkScan terms maxLen [] text).found,
      ∃ l ∈ split_lines_with terms text maxLen true, t <:+: l := by
  intro t ht
  simp only [split_lines_with, if_true]
  exact cjkScan_found_in_line terms maxLen [] text t ht

/-- Concrete evaluation of the scan on the text `"AI"` (the scan is defined
by well-founded recursion, so it is evaluated through its step lemmas). -/
theorem cjkScan_AI_eval :
    cjkScan preserved_terms 16 [] ("AI".toList)
      = ⟨["AI".toList], ["AI".toList]⟩ := by
  have hfind : findTerm preserved_terms ('A' :: ['I']) = some ('A' :: ['I']) := by
    decide
  rw [show ("AI".toList) = 'A' :: ['I'] from rfl]
  rw [cjkScan_term_fit hfind (by decide)]
  have h2 : skipSpace (List.drop (('A' :: ['I']).length - 1) ['I']) = [] := by
    decide
  rw [List.nil_append, h2, cjkScan_nil]
  decide

/-- Witness for C1 at a concrete input: the term `"AI"` matched by the scan
ends up inside a single output line. -/
theorem C1_protected_term_integrity_witness :
    ∃ l ∈ split_lines_with preserved_terms ("AI".toList) 16 true,
      ("AI".toList) <:+: l :=
  C1_protected_term_integrity preserved_terms ("AI".toList) 16
    (by norm_num) ("AI".toList) (by rw [cjkScan_AI_eval]; decide)

end SrtSplit
